import Mathlib

/-
Verification of the conversation-summarizer bot core: the per-channel
message cache (bot.py, ConversationSummarizerBot.on_message and
cache_message), the truncation policy (summarizer.py,
ConversationSummarizer.truncate_conversation), the conversation formatter
(summarizer.py, ConversationSummarizer._format_conversation) and the
summarization boundary (summarizer.py,
ConversationSummarizer.summarize_conversation).

Messages are modelled as author/content string pairs; Python string
length is code-point count, which matches String.length on Lean strings.
The external inference call is modelled as an oracle value of type
Option String: none stands for a transport or service error, some r for
a response text r.
-/

/-- A cached message: the author display name and the text content. -/
structure Msg where
  author : String
  content : String
deriving DecidableEq

/-- A raw incoming chat event as seen by on_message: author display name,
text content, and the is-bot flag of the author. -/
structure MsgEvent where
  author : String
  content : String
  isBot : Bool
deriving DecidableEq

/-- The Python f-string rendering used by truncate_conversation, line 131
of summarizer.py. -/
def serialize (m : Msg) : String :=
  m.author ++ ": " ++ m.content ++ "\n"

/-- Serialized length of one message. -/
def serLen (m : Msg) : Nat :=
  (serialize m).length

/-- Total serialized length of a list of messages. -/
def serTotal (msgs : List Msg) : Nat :=
  (msgs.map serLen).sum

/-- Python str.strip with no argument: remove whitespace characters from
both ends of the string. -/
def pyStrip (s : String) : String :=
  ⟨((s.data.dropWhile Char.isWhitespace).reverse.dropWhile Char.isWhitespace).reverse⟩

/-- Python "\n".join applied to a list of lines. -/
def joinLines : List String → String
  | [] => ""
  | [l] => l
  | l :: l2 :: ls => l ++ "\n" ++ joinLines (l2 :: ls)

/-- The loop of truncate_conversation, lines 126 to 139 of summarizer.py,
acting on the reversed message list: walk from most recent to least
recent, keep a message while the accumulated serialized length stays
within the budget, and stop at the first message that does not fit. -/
def takeWhileFits (maxLength : Int) : List Msg → Int → List Msg
  | [], _ => []
  | m :: rest, cur =>
    if cur + (serLen m : Int) ≤ maxLength then
      m :: takeWhileFits maxLength rest (cur + (serLen m : Int))
    else []

/-- ConversationSummarizer.truncate_conversation of summarizer.py: the
kept messages are re-assembled in chronological order via insert at
index zero, which is the reverse of the processing order. -/
def truncate_conversation (msgs : List Msg) (maxLength : Int) : List Msg :=
  (takeWhileFits maxLength msgs.reverse 0).reverse

/-- The loop of _format_conversation, lines 90 to 97 of summarizer.py:
strip each content, skip messages whose stripped content is empty, and
render the rest as author, colon, space, stripped content. -/
def formatLines : List Msg → List String
  | [] => []
  | m :: rest =>
    if pyStrip m.content = "" then formatLines rest
    else (m.author ++ ": " ++ pyStrip m.content) :: formatLines rest

/-- ConversationSummarizer._format_conversation of summarizer.py: the
rendered lines joined with newline. -/
def format_conversation (msgs : List Msg) : String :=
  joinLines (formatLines msgs)

/-- The fixed notice returned for an empty message list, line 25 of
summarizer.py. -/
def noMessagesNotice : String :=
  "No messages to summarize."

/-- ConversationSummarizer.summarize_conversation of summarizer.py, with
the inference layer abstracted as an oracle response: none models a
raised transport or service error (caught and turned into None by
_call_ollama and by the surrounding try block), some r models a returned
response text. A truthy stripped response is returned stripped; an empty
or whitespace-only response yields None. -/
def summarize_conversation (messages : List Msg) (response : Option String) :
    Option String :=
  if messages = [] then some noMessagesNotice
  else
    match response with
    | none => none
    | some r => if pyStrip r = "" then none else some (pyStrip r)

/-- ConversationSummarizerBot.cache_message of bot.py for one channel:
append the message, then, when the size exceeds nmax, keep the Python
slice with the last nmax elements. The slice with negative index -nmax
keeps the whole list when nmax is zero, exactly as in Python. -/
def cacheInsert (nmax : Nat) (cache : List Msg) (m : Msg) : List Msg :=
  if nmax < (cache ++ [m]).length then
    if nmax = 0 then cache ++ [m]
    else (cache ++ [m]).drop ((cache ++ [m]).length - nmax)
  else cache ++ [m]

/-- ConversationSummarizerBot.on_message of bot.py for one channel:
messages from bot authors are ignored before any caching; every other
message is handed to cache_message unconditionally. -/
def on_message (nmax : Nat) (cache : List Msg) (e : MsgEvent) : List Msg :=
  if e.isBot then cache
  else cacheInsert nmax cache ⟨e.author, e.content⟩

/-- Recording a sequence of messages into an initially empty channel
cache. -/
def recordAll (nmax : Nat) (msgs : List Msg) : List Msg :=
  msgs.foldl (cacheInsert nmax) []

theorem serLen_eq (m : Msg) : serLen m = m.author.length + m.content.length + 3 := by
  have h2 : (": ").length = 2 := rfl
  have h1 : ("\n").length = 1 := rfl
  simp [serLen, serialize, String.length_append, h2, h1]
  omega

theorem three_le_serLen (m : Msg) : 3 ≤ serLen m := by
  rw [serLen_eq]; omega

theorem serTotal_nil : serTotal [] = 0 := rfl

theorem serTotal_cons (m : Msg) (l : List Msg) :
    serTotal (m :: l) = serLen m + serTotal l := by
  simp [serTotal]

theorem serTotal_reverse (l : List Msg) : serTotal l.reverse = serTotal l := by
  simp [serTotal, List.sum_reverse]

theorem takeWhileFits_suffix (C : Int) :
    ∀ (rev : List Msg) (cur : Int), ∃ t, takeWhileFits C rev cur ++ t = rev := by
  intro rev
  induction rev with
  | nil => exact fun _ => ⟨[], rfl⟩
  | cons m rest ih =>
    intro cur
    by_cases h : cur + (serLen m : Int) ≤ C
    · obtain ⟨t, ht⟩ := ih (cur + (serLen m : Int))
      exact ⟨t, by simp [takeWhileFits, h, ht]⟩
    · exact ⟨m :: rest, by simp [takeWhileFits, h]⟩

theorem takeWhileFits_sum (C : Int) :
    ∀ (rev : List Msg) (cur : Int),
      takeWhileFits C rev cur = [] ∨
        cur + (serTotal (takeWhileFits C rev cur) : Int) ≤ C := by
  intro rev
  induction rev with
  | nil => exact fun _ => Or.inl rfl
  | cons m rest ih =>
    intro cur
    by_cases h : cur + (serLen m : Int) ≤ C
    · right
      rcases ih (cur + (serLen m : Int)) with h0 | h1
      · simp [takeWhileFits, h, h0, serTotal_cons, serTotal_nil]
      · simp only [takeWhileFits, h, if_pos, serTotal_cons]
        push_cast
        omega
    · exact Or.inl (by simp [takeWhileFits, h])

theorem takeWhileFits_full (C : Int) :
    ∀ (rev : List Msg) (cur : Int),
      cur + (serTotal rev : Int) ≤ C → takeWhileFits C rev cur = rev := by
  intro rev
  induction rev with
  | nil => exact fun _ _ => rfl
  | cons m rest ih =>
    intro cur h
    rw [serTotal_cons] at h
    push_cast at h
    have h1 : cur + (serLen m : Int) ≤ C := by
      have := serTotal rest
      omega
    simp [takeWhileFits, h1, ih (cur + (serLen m : Int)) (by omega)]

theorem truncate_isSuffix (msgs : List Msg) (C : Int) :
    truncate_conversation msgs C <:+ msgs := by
  obtain ⟨t, ht⟩ := takeWhileFits_suffix C msgs.reverse 0
  refine ⟨t.reverse, ?_⟩
  have h := congrArg List.reverse ht
  simpa [truncate_conversation] using h

theorem serTotal_truncate_le (msgs : List Msg) (C : Int) (h : 0 ≤ C) :
    (serTotal (truncate_conversation msgs C) : Int) ≤ C := by
  rcases takeWhileFits_sum C msgs.reverse 0 with h0 | h1
  · simp [truncate_conversation, h0, serTotal_nil]
    exact h
  · rw [truncate_conversation, serTotal_reverse]
    omega

theorem truncate_nil (C : Int) : truncate_conversation [] C = [] := rfl

theorem truncate_eq_nil_iff (msgs : List Msg) (C : Int) :
    truncate_conversation msgs C = [] ↔
      msgs = [] ∨ ∃ m, msgs.getLast? = some m ∧ C < (serLen m : Int) := by
  rw [truncate_conversation, List.reverse_eq_nil_iff]
  cases hrev : msgs.reverse with
  | nil =>
    have hm : msgs = [] := List.reverse_eq_nil_iff.mp hrev
    subst hm
    simp [takeWhileFits]
  | cons a rest =>
    have hne : msgs ≠ [] := by
      intro h
      subst h
      simp at hrev
    have hlast : msgs.getLast? = some a := by
      rw [← List.head?_reverse, hrev]
      rfl
    by_cases h : (0 : Int) + (serLen a : Int) ≤ C
    · have hnlt : ¬ C < (serLen a : Int) := by omega
      simp [takeWhileFits, h, hne, hlast, hnlt]
    · have hlt : C < (serLen a : Int) := by omega
      simp [takeWhileFits, h, hlast, hlt]

theorem pyStrip_length_le (s : String) : (pyStrip s).length ≤ s.length := by
  show (((s.data.dropWhile Char.isWhitespace).reverse.dropWhile
      Char.isWhitespace).reverse).length ≤ s.data.length
  rw [List.length_reverse]
  calc ((s.data.dropWhile Char.isWhitespace).reverse.dropWhile Char.isWhitespace).length
      ≤ ((s.data.dropWhile Char.isWhitespace).reverse).length :=
        (List.dropWhile_sublist Char.isWhitespace).length_le
    _ = (s.data.dropWhile Char.isWhitespace).length := List.length_reverse _
    _ ≤ s.data.length := (List.dropWhile_sublist Char.isWhitespace).length_le

theorem formatLine_length (m : Msg) :
    (m.author ++ ": " ++ pyStrip m.content).length + 1 ≤ serLen m := by
  have h2 : (": ").length = 2 := rfl
  have hs := pyStrip_length_le m.content
  rw [serLen_eq]
  simp [String.length_append, h2]
  omega

theorem joinLines_formatLines_le (msgs : List Msg) :
    (joinLines (formatLines msgs)).length ≤ serTotal msgs := by
  induction msgs with
  | nil => simp [formatLines, joinLines, serTotal_nil]
  | cons m rest ih =>
    by_cases h : pyStrip m.content = ""
    · calc (joinLines (formatLines (m :: rest))).length
          = (joinLines (formatLines rest)).length := by rw [formatLines, if_pos h]
        _ ≤ serTotal rest := ih
        _ ≤ serTotal (m :: rest) := by rw [serTotal_cons]; omega
    · have hline := formatLine_length m
      rw [serTotal_cons]
      cases hr : formatLines rest with
      | nil =>
        rw [formatLines, if_neg h, hr]
        show (m.author ++ ": " ++ pyStrip m.content).length ≤ serLen m + serTotal rest
        omega
      | cons a ls =>
        rw [hr] at ih
        rw [formatLines, if_neg h, hr]
        show (m.author ++ ": " ++ pyStrip m.content ++ "\n" ++ joinLines (a :: ls)).length
          ≤ serLen m + serTotal rest
        have h1 : ("\n").length = 1 := rfl
        simp [String.length_append, h1]
        simp [String.length_append] at hline
        omega

theorem formatLines_eq_filter_map (msgs : List Msg) :
    formatLines msgs =
      (msgs.filter (fun m => !(pyStrip m.content == ""))).map
        (fun m => m.author ++ ": " ++ pyStrip m.content) := by
  induction msgs with
  | nil => rfl
  | cons m rest ih =>
    by_cases h : pyStrip m.content = ""
    · rw [formatLines, if_pos h, ih, List.filter_cons]
      simp [h]
    · rw [formatLines, if_neg h, ih, List.filter_cons]
      simp [h]

theorem cacheInsert_length_le (nmax : Nat) (h : 0 < nmax) (cache : List Msg) (m : Msg) :
    (cacheInsert nmax cache m).length ≤ nmax := by
  rw [cacheInsert]
  by_cases hl : nmax < (cache ++ [m]).length
  · have hz : nmax ≠ 0 := by omega
    rw [if_pos hl, if_neg hz, List.length_drop]
    omega
  · rw [if_neg hl]
    omega

theorem foldl_cacheInsert_length_le (nmax : Nat) (h : 0 < nmax) :
    ∀ (msgs cache : List Msg), cache.length ≤ nmax →
      (msgs.foldl (cacheInsert nmax) cache).length ≤ nmax := by
  intro msgs
  induction msgs with
  | nil => exact fun _ hc => hc
  | cons m rest ih =>
    intro cache _
    exact ih (cacheInsert nmax cache m) (cacheInsert_length_le nmax h cache m)

theorem cacheInsert_evict (nmax : Nat) (h : 0 < nmax) (cache : List Msg) (m : Msg)
    (hfull : cache.length = nmax) :
    cacheInsert nmax cache m = cache.drop 1 ++ [m] ∧
      (cacheInsert nmax cache m).length = nmax := by
  have hlen : (cache ++ [m]).length = nmax + 1 := by
    rw [List.length_append, hfull]
    rfl
  have hl : nmax < (cache ++ [m]).length := by omega
  have hz : nmax ≠ 0 := by omega
  have heq : cacheInsert nmax cache m = cache.drop 1 ++ [m] := by
    rw [cacheInsert, if_pos hl, if_neg hz, hlen]
    have hd : nmax + 1 - nmax = 1 := by omega
    rw [hd, List.drop_append_of_le_length (by omega)]
  refine ⟨heq, ?_⟩
  rw [heq, List.length_append, List.length_drop, hfull]
  simp
  omega

/-- C1 counterexample: at budget -1 the result of truncate_conversation is
empty, and its total serialized length 0 is not below the budget, so the
claim as stated over every integer budget fails. -/
theorem truncate_budget_ce :
    ¬ ((serTotal (truncate_conversation [⟨"A", "hello"⟩] (-1)) : Int) ≤ -1) := by
  decide

/-- C1 (amended): for every message list and every integer budget the
result of truncate_conversation is a contiguous suffix of the input in
chronological order, and whenever the budget is nonnegative the total
serialized length of the result, each message rendered as author, colon,
space, content, newline, is at most the budget. -/
theorem truncate_suffix_and_budget (msgs : List Msg) (C : Int) :
    truncate_conversation msgs C <:+ msgs ∧
    (0 ≤ C → (serTotal (truncate_conversation msgs C) : Int) ≤ C) :=
  ⟨truncate_isSuffix msgs C, fun h => serTotal_truncate_le msgs C h⟩

/-- C1 witness: the amended theorem applied at one message and budget 100. -/
theorem truncate_suffix_and_budget_witness :
    truncate_conversation [⟨"A", "hello"⟩] 100 <:+ [⟨"A", "hello"⟩] ∧
    (serTotal (truncate_conversation [⟨"A", "hello"⟩] 100) : Int) ≤ 100 :=
  ⟨(truncate_suffix_and_budget [⟨"A", "hello"⟩] 100).1,
   (truncate_suffix_and_budget [⟨"A", "hello"⟩] 100).2 (by decide)⟩

/-- C2: for a positive bound nmax, every sequence of records into an
initially empty channel cache leaves at most nmax entries; when the cache
is full an insertion drops the oldest entry from the front and the size
stays exactly nmax; and recording m1, m2, m3, m4 with bound 3 yields
m2, m3, m4 in arrival order. -/
theorem cache_bound_fifo (nmax : Nat) (h : 0 < nmax) (msgs cache : List Msg)
    (m m1 m2 m3 m4 : Msg) :
    (recordAll nmax msgs).length ≤ nmax ∧
    (cache.length = nmax →
      cacheInsert nmax cache m = cache.drop 1 ++ [m] ∧
        (cacheInsert nmax cache m).length = nmax) ∧
    recordAll 3 [m1, m2, m3, m4] = [m2, m3, m4] := by
  refine ⟨?_, fun hfull => cacheInsert_evict nmax h cache m hfull, ?_⟩
  · exact foldl_cacheInsert_length_le nmax h msgs [] (by simp)
  · rfl

/-- C2 witness: the theorem applied at bound 3 with concrete caches and
messages, the full-cache hypothesis discharged at a cache of size 3. -/
theorem cache_bound_fifo_witness :
    (recordAll 3 [(⟨"a", "1"⟩ : Msg), ⟨"b", "2"⟩]).length ≤ 3 ∧
    (cacheInsert 3 [⟨"x", "1"⟩, ⟨"y", "2"⟩, ⟨"z", "3"⟩] ⟨"w", "4"⟩ =
        ([(⟨"x", "1"⟩ : Msg), ⟨"y", "2"⟩, ⟨"z", "3"⟩]).drop 1 ++ [⟨"w", "4"⟩] ∧
      (cacheInsert 3 [(⟨"x", "1"⟩ : Msg), ⟨"y", "2"⟩, ⟨"z", "3"⟩] ⟨"w", "4"⟩).length = 3) ∧
    recordAll 3 [⟨"m", "1"⟩, ⟨"m", "2"⟩, ⟨"m", "3"⟩, ⟨"m", "4"⟩] =
      [⟨"m", "2"⟩, ⟨"m", "3"⟩, ⟨"m", "4"⟩] :=
  ⟨(cache_bound_fifo 3 (by decide) [⟨"a", "1"⟩, ⟨"b", "2"⟩]
      [⟨"x", "1"⟩, ⟨"y", "2"⟩, ⟨"z", "3"⟩] ⟨"w", "4"⟩
      ⟨"m", "1"⟩ ⟨"m", "2"⟩ ⟨"m", "3"⟩ ⟨"m", "4"⟩).1,
   (cache_bound_fifo 3 (by decide) [⟨"a", "1"⟩, ⟨"b", "2"⟩]
      [⟨"x", "1"⟩, ⟨"y", "2"⟩, ⟨"z", "3"⟩] ⟨"w", "4"⟩
      ⟨"m", "1"⟩ ⟨"m", "2"⟩ ⟨"m", "3"⟩ ⟨"m", "4"⟩).2.1 (by decide),
   (cache_bound_fifo 3 (by decide) [⟨"a", "1"⟩, ⟨"b", "2"⟩]
      [⟨"x", "1"⟩, ⟨"y", "2"⟩, ⟨"z", "3"⟩] ⟨"w", "4"⟩
      ⟨"m", "1"⟩ ⟨"m", "2"⟩ ⟨"m", "3"⟩ ⟨"m", "4"⟩).2.2⟩

/-- C3 counterexample: a whitespace-only message from a non-bot author is
recorded: on an empty channel cache the record call changes the snapshot
from empty to one entry, so recording it is not a no-op. -/
theorem record_whitespace_ce :
    pyStrip " " = "" ∧ on_message 50 [] ⟨"A", " ", false⟩ ≠ [] := by
  constructor
  · decide
  · decide

/-- C3 (amended): recording a message from a bot-flagged author is a
no-op, but a message from a non-bot author always enters the cache, even
when its content is empty or whitespace-only: only the bot filter runs
before caching. -/
theorem record_filter_amended (nmax : Nat) (cache : List Msg) (a c : String) :
    on_message nmax cache ⟨a, c, true⟩ = cache ∧
    on_message nmax cache ⟨a, c, false⟩ = cacheInsert nmax cache ⟨a, c⟩ :=
  ⟨rfl, rfl⟩

/-- C4: the result of truncate_conversation is empty exactly when the
input is empty or the serialized length of the single most recent message
alone exceeds the budget; and a budget at most 0 always yields an empty
result. -/
theorem truncate_empty_iff (msgs : List Msg) (C : Int) :
    (truncate_conversation msgs C = [] ↔
      msgs = [] ∨ ∃ m, msgs.getLast? = some m ∧ C < (serLen m : Int)) ∧
    (C ≤ 0 → truncate_conversation msgs C = []) := by
  refine ⟨truncate_eq_nil_iff msgs C, fun hC => ?_⟩
  rcases hm : msgs.getLast? with _ | m
  · have h0 : msgs = [] := List.getLast?_eq_none_iff.mp hm
    subst h0
    rfl
  · exact (truncate_eq_nil_iff msgs C).mpr
      (Or.inr ⟨m, hm, by have := three_le_serLen m; omega⟩)

/-- C4 witness: the theorem applied at one message and budget 0. -/
theorem truncate_empty_iff_witness :
    truncate_conversation [⟨"A", "hello"⟩] 0 = [] :=
  (truncate_empty_iff [⟨"A", "hello"⟩] 0).2 (by decide)

/-- C5: for a non-empty message list, summarize_conversation returns the
stripped response when the oracle response strips to a non-empty string,
returns none when the oracle signals an error, returns none when the
response strips to empty, and never returns the empty string as a
success. -/
theorem summarize_failure_policy (msgs : List Msg) (resp : Option String)
    (h : msgs ≠ []) :
    (∀ r, resp = some r → pyStrip r ≠ "" →
      summarize_conversation msgs resp = some (pyStrip r)) ∧
    (resp = none → summarize_conversation msgs resp = none) ∧
    (∀ r, resp = some r → pyStrip r = "" →
      summarize_conversation msgs resp = none) ∧
    (∀ s, summarize_conversation msgs resp = some s → s ≠ "") := by
  refine ⟨?_, ?_, ?_, ?_⟩
  · intro r hr hne
    subst hr
    simp [summarize_conversation, h, hne]
  · intro hr
    subst hr
    simp [summarize_conversation, h]
  · intro r hr he
    subst hr
    simp [summarize_conversation, h, he]
  · intro s hs hc
    subst hc
    rcases resp with _ | r
    · simp [summarize_conversation, h] at hs
    · by_cases he : pyStrip r = ""
      · simp [summarize_conversation, h, he] at hs
      · simp [summarize_conversation, h, he] at hs

/-- C5 witness: the theorem applied at one message and a response that
strips to a non-empty string. -/
theorem summarize_failure_policy_witness :
    summarize_conversation [⟨"A", "hi"⟩] (some " ok ") = some (pyStrip " ok ") :=
  (summarize_failure_policy [⟨"A", "hi"⟩] (some " ok ") (by decide)).1
    " ok " rfl (by decide)

/-- C6: truncate_conversation is idempotent at every budget: truncating
an already truncated list with the same budget changes nothing. -/
theorem truncate_idempotent (msgs : List Msg) (C : Int) :
    truncate_conversation (truncate_conversation msgs C) C =
      truncate_conversation msgs C := by
  rcases takeWhileFits_sum C msgs.reverse 0 with h0 | h1
  · simp only [truncate_conversation, List.reverse_reverse, h0]
    rfl
  · simp only [truncate_conversation, List.reverse_reverse]
    rw [takeWhileFits_full C (takeWhileFits C msgs.reverse 0) 0 h1]

/-- C7: on the empty message list, summarize_conversation succeeds with
the fixed no-content notice whatever the inference oracle would have
answered, and is never a failure; the oracle value is not consulted. -/
theorem summarize_empty_notice (resp : Option String) :
    summarize_conversation [] resp = some noMessagesNotice ∧
    summarize_conversation [] resp ≠ none := by
  constructor
  · rfl
  · simp [summarize_conversation]

/-- C8 counterexample: on a message whose content has surrounding
whitespace the rendered line uses the stripped content, not the raw
content as the claim states. -/
theorem format_trim_ce :
    format_conversation [⟨"A", " hello "⟩] = "A: hello" ∧
    format_conversation [⟨"A", " hello "⟩] ≠ "A: " ++ " hello " := by
  constructor
  · decide
  · decide

/-- C8 (amended): format_conversation renders each message whose stripped
content is non-empty as author, colon, space, stripped content, joins the
lines with newlines in input order and skips messages whose stripped
content is empty; on the two example messages it yields the expected two
lines. -/
theorem format_conversation_spec (msgs : List Msg) :
    format_conversation msgs =
      joinLines ((msgs.filter (fun m => !(pyStrip m.content == ""))).map
        (fun m => m.author ++ ": " ++ pyStrip m.content)) ∧
    format_conversation [⟨"A", "hello"⟩, ⟨"B", "hi"⟩] = "A: hello\nB: hi" := by
  constructor
  · rw [format_conversation, formatLines_eq_filter_map]
  · decide

/-- C9: for every nonnegative budget, the formatted text of the truncated
conversation is never longer than the budget. -/
theorem formatted_length_le_budget (msgs : List Msg) (C : Int) (h : 0 ≤ C) :
    ((format_conversation (truncate_conversation msgs C)).length : Int) ≤ C := by
  have h1 := joinLines_formatLines_le (truncate_conversation msgs C)
  have h2 := serTotal_truncate_le msgs C h
  show ((joinLines (formatLines (truncate_conversation msgs C))).length : Int) ≤ C
  omega

/-- C9 witness: the theorem applied at one message and budget 50. -/
theorem formatted_length_le_budget_witness :
    ((format_conversation (truncate_conversation [⟨"A", "hello"⟩] 50)).length : Int) ≤ 50 :=
  formatted_length_le_budget [⟨"A", "hello"⟩] 50 (by decide)
